import Mathlib

/-
Verification of the regex-compiler core of `lime_lex` (crate under
`src/lime_lex/src/regex/`): the scanner (`scan.rs`), the simplifier
(`simplify.rs`), the recursive-descent parser (`parse.rs`) and the
Thompson-style NFA construction (`nfa.rs`).

Conventions of the shallow embedding:
* Rust `u8` bytes and `usize` indices are `Nat`.  The scanner's ASCII
  check makes every byte of a well-formed input `< 128`, so the `u8`
  additions that occur in range expansion (`first..(c+1)`) cannot
  overflow; they are modelled as plain `Nat` addition.
* `Result<T, Error>` is `Except String T`; `Error` is a message carrier
  (`Error::new`), so only the message is kept.
* The Rust code copies its input into a reversed `Vec` and `pop`s from
  the end, i.e. it consumes the original sequence front to back; here the
  remaining input is a `List` whose head is the next item, and a Rust
  `push` that puts a byte back is `cons`.
* `HashSet<u8>` is modelled as a strictly ascending `List Nat`
  (a canonical representative: Rust `HashSet` equality is set equality,
  and its iteration order is unspecified; the simplifier iterates the
  canonical list in ascending order, one of the orders the source may
  produce).
* Panics (in `Transition::add_epsilon` and vector indexing) are modelled
  by `Option`: `none` means the Rust code would panic.
-/

namespace LimeLex

/-- Decidable equality for `Except`, so that concrete pipeline runs can be
settled with `decide`. -/
instance {ε α : Type _} [DecidableEq ε] [DecidableEq α] : DecidableEq (Except ε α) :=
  fun x y =>
    match x, y with
    | .error a, .error b =>
      if h : a = b then .isTrue (by rw [h]) else .isFalse (by simp [h])
    | .ok a, .ok b =>
      if h : a = b then .isTrue (by rw [h]) else .isFalse (by simp [h])
    | .error _, .ok _ => .isFalse (by simp)
    | .ok _, .error _ => .isFalse (by simp)

/-- Output tokens of the scanner (`FirstRegexToken` in `scan.rs`). -/
inductive FirstRegexToken where
  | Character (c : Nat)
  | MinMax (min max : Nat)
  | Times (n : Nat)
  | Set (chars : List Nat)
  | InverseSet (chars : List Nat)
  | Alternation
  | KleenClosure
  | Question
  | Plus
  | Wildcard
  | LParen
  | RParen
deriving DecidableEq, Repr

/-- Output tokens of the simplifier (`Token` in `simplify.rs`). -/
inductive Token where
  | Character (c : Nat)
  | MinMax (min max : Nat)
  | Times (n : Nat)
  | Concat
  | Alternation
  | KleenClosure
  | Question
  | Plus
  | LParen
  | RParen
deriving DecidableEq, Repr

/-- Binary operators of the regex AST (`BinaryOperation` in `parse.rs`). -/
inductive BinaryOperation where
  | Concat
  | Alternation
deriving DecidableEq, Repr

/-- Unary postfix operators of the regex AST (`UnaryOperation` in `parse.rs`). -/
inductive UnaryOperation where
  | MinMax (min max : Nat)
  | Times (n : Nat)
  | KleenClosure
  | Question
  | Plus
deriving DecidableEq, Repr

/-- The regex AST (`RAST` in `parse.rs`).  Boxes are erased. -/
inductive RAST where
  | Binary (left right : RAST) (op : BinaryOperation)
  | Unary (child : RAST) (op : UnaryOperation)
  | Atomic (c : Nat)
deriving DecidableEq, Repr

/-- One NFA node (`Transition` in `nfa.rs`). -/
inductive Transition where
  | Epsilon (targets : List Nat)
  | Character (c : Nat) (target : Nat)
deriving DecidableEq, Repr

/-- `type NFA = Vec<Transition>` from `nfa.rs`: first element is the start
node, last element is the finish node. -/
abbrev NFA := List Transition

/-- Index range of a spliced sub-NFA (`Range` in `nfa.rs`; the Rust field
`end` is a Lean keyword and is called `stop` here). -/
structure Range where
  start : Nat
  stop : Nat
deriving DecidableEq, Repr

/-! ### The canonical `HashSet<u8>` model -/

/-- Insert into the strictly ascending canonical list (models
`HashSet::insert`: a duplicate is dropped). -/
def hsInsert (x : Nat) : List Nat → List Nat
  | [] => [x]
  | y :: ys =>
    if x < y then x :: y :: ys
    else if x = y then y :: ys
    else y :: hsInsert x ys

/-- Membership test (models `HashSet::contains`). -/
def hsContains (s : List Nat) (x : Nat) : Bool := s.contains x

/-- Insert every byte of the Rust range `first..(last+1)`
(`for i in first..(c+1) { set.insert(i) }` in `get_set`). -/
def hsInsertUpto (first last : Nat) (s : List Nat) : List Nat :=
  (List.range' first (last + 1 - first)).foldl (fun acc i => hsInsert i acc) s

/-! ### Scanner (`scan.rs`) -/

/-- `get_escape_char` from `scan.rs`. -/
def get_escape_char (letter : Nat) : Nat :=
  if letter = 48 then 0        -- b'0'
  else if letter = 114 then 13 -- b'r'
  else if letter = 110 then 10 -- b'n'
  else if letter = 116 then 9  -- b't'
  else letter

/-- The digit-consuming loop of `get_num`: pop bytes while they are ASCII
digits, accumulating `number = number * 10 + (c & 0x0f)` in a `u64`
(release-mode wrapping arithmetic, hence the `% 2 ^ 64`); a non-digit is
pushed back and ends the loop.  Returns the accumulator and the remaining
input. -/
def get_num_loop : List Nat → Nat → Nat × List Nat
  | [], number => (number, [])
  | c :: rest, number =>
    if c < 48 ∨ 57 < c then (number, c :: rest)
    else get_num_loop rest ((number * 10 + (c &&& 15)) % (2 ^ 64))

/-- `get_num` from `scan.rs`: fails on exhausted input, otherwise consumes
zero or more digits; numbers above 255 are rejected. -/
def get_num (regex : List Nat) : Except String (Nat × List Nat) :=
  if regex.isEmpty then .error "Mismatched \x7b"
  else
    let p := get_num_loop regex 0
    if 255 < p.1 then .error "Numbers in \x7b\x7d must be less than 256"
    else .ok (p.1, p.2)

/-- `scan_times` from `scan.rs` (the body after the `{` byte was consumed).
The Rust function returns `Ok(Some(tok))` on success; the `Some` wrapper is
restored by the caller `scan_token`. -/
def scan_times (regex : List Nat) : Except String (FirstRegexToken × List Nat) :=
  match get_num regex with
  | .error e => .error e
  | .ok (min, r1) =>
    match r1 with
    | [] => .error "Regex ends without closing \x7b"
    | c :: r2 =>
      if c = 125 then .ok (.Times min, r2)           -- b'}'
      else if c = 44 then                             -- b','
        match get_num r2 with
        | .error e => .error e
        | .ok (max, r3) =>
          match r3 with
          | [] => .error "Regex ends without closing \x7b"
          | d :: r4 =>
            if d = 125 then .ok (.MinMax min max, r4)
            else .error "Mismatched \x7b\x7d"
      else .error "Illegal character in brackets"

/-- `get_set` from `scan.rs`.  One loop iteration of the source:
* `\` pops the next byte and pushes `get_escape_char` of it back
  (so the *translated* byte is rescanned on the next iteration);
* a non-escaped `]` ends the class;
* otherwise the byte is a member, with a one-byte lookahead deciding
  between `]` (member then end), `-` (range) and anything else (member,
  lookahead pushed back).
If the input runs out with the loop guard (`while let Some`), the set
read so far is returned (only the inner `pop`s report `Mismatched []`).
Each iteration strictly shortens the list, so a fuel of
`input length + 1` (supplied by `scan_token`) always suffices and the
fuel-exhaustion branch is unreachable. -/
def get_set : Nat → List Nat → List Nat → Except String (List Nat × List Nat)
  | 0, _, _ => .error "Ran out of fuel"
  | fuel + 1, regex, set =>
    match regex with
    | [] => .ok (set, [])
    | c :: rest =>
      if c = 92 then                                    -- b'\\'
        match rest with
        | [] => .error "Cannot have \\ on end of regex"
        | x :: r2 => get_set fuel (get_escape_char x :: r2) set
      else if c = 93 then .ok (set, rest)               -- b']'
      else
        match rest with
        | [] => .error "Mismatched []"
        | d :: r2 =>
          if d = 93 then .ok (hsInsert c set, r2)
          else if d = 45 then                           -- b'-'
            match r2 with
            | [] => .error "Mismatched []"
            | e :: r3 => get_set fuel r3 (hsInsertUpto c e set)
          else get_set fuel (d :: r2) (hsInsert c set)

/-- `scan_token` from `scan.rs`: consume one token from the front of the
input; `none` when the input is exhausted. -/
def scan_token (regex : List Nat) :
    Except String (Option (FirstRegexToken × List Nat)) :=
  match regex with
  | [] => .ok none
  | c :: rest =>
    if c = 92 then                                    -- b'\\'
      match rest with
      | [] => .error "Cannot have \\ on end of regex"
      | x :: r2 => .ok (some (.Character (get_escape_char x), r2))
    else if c = 124 then .ok (some (.Alternation, rest))   -- b'|'
    else if c = 42 then .ok (some (.KleenClosure, rest))   -- b'*'
    else if c = 63 then .ok (some (.Question, rest))       -- b'?'
    else if c = 43 then .ok (some (.Plus, rest))           -- b'+'
    else if c = 40 then .ok (some (.LParen, rest))         -- b'('
    else if c = 41 then .ok (some (.RParen, rest))         -- b')'
    else if c = 123 then                                   -- b'{'
      match scan_times rest with
      | .error e => .error e
      | .ok (t, r) => .ok (some (t, r))
    else if c = 91 then                                    -- b'['
      match rest with
      | [] => .error "Mismatched []"
      | d :: r2 =>
        if d = 94 then                                     -- b'^'
          match get_set (r2.length + 1) r2 [] with
          | .error e => .error e
          | .ok (s, r) => .ok (some (.InverseSet s, r))
        else
          match get_set (r2.length + 2) (d :: r2) [] with
          | .error e => .error e
          | .ok (s, r) => .ok (some (.Set s, r))
    else if c = 46 then .ok (some (.Wildcard, rest))       -- b'.'
    else .ok (some (.Character c, rest))

/-- The token-collecting loop of `scan` (`while let Some(t) = scan_token`).
`scan_token` consumes at least one byte whenever it yields a token, so a
fuel of `input length + 1` always suffices; the fuel-exhaustion branch is
unreachable when `scan_loop` is called through `scan`. -/
def scan_loop : Nat → List Nat → Except String (List FirstRegexToken)
  | 0, _ => .error "Ran out of fuel"
  | fuel + 1, regex =>
    match scan_token regex with
    | .error e => .error e
    | .ok none => .ok []
    | .ok (some (t, rest)) =>
      match scan_loop fuel rest with
      | .error e => .error e
      | .ok ts => .ok (t :: ts)

/-- `scan` from `scan.rs`: ASCII check, emptiness check, then the token
loop. -/
def scan (regex : List Nat) : Except String (List FirstRegexToken) :=
  if ¬ regex.all (fun c => c < 128) then
    .error "This Regex Engine only supports ASCII"
  else if regex.length = 0 then .error "Cannot have an empty regex"
  else scan_loop (regex.length + 1) regex

/-! ### Simplifier (`simplify.rs`) -/

/-- Expansion of one class in pass A of `simpilfy`: push `LParen`, then
`Character b; Alternation` for each member, pop the trailing token, push
`RParen`.  The `dropLast` reproduces the source's `tokens.pop()` (which,
for an empty member list, would pop the `LParen` itself — unreachable
behind the emptiness check, but modelled faithfully). -/
def expand_set (hs : List Nat) : List Token :=
  (Token.LParen :: hs.flatMap (fun b => [Token.Character b, Token.Alternation])).dropLast
    ++ [Token.RParen]

/-- The complement `{0..=126} \ set` built by the `InverseSet` branch
(`for i in 0..127 { if !set.contains(&i) { new_set.insert(i) } }`). -/
def invert_set (set : List Nat) : List Nat :=
  (List.range 127).filter (fun i => ¬ hsContains set i)

/-- Pass A of `simpilfy`: rewrite `Set`/`InverseSet`/`Wildcard` into
explicit parenthesised alternations, keep every other token. -/
def simplify_pass : List FirstRegexToken → Except String (List Token)
  | [] => .ok []
  | t :: rest =>
    match t with
    | .Set hs =>
      if hs.isEmpty then .error "Cannot have an empty set []"
      else
        match simplify_pass rest with
        | .error e => .error e
        | .ok ts => .ok (expand_set hs ++ ts)
    | .InverseSet set =>
      let hs := invert_set set
      if hs.isEmpty then .error "Cannot have an empty set []"
      else
        match simplify_pass rest with
        | .error e => .error e
        | .ok ts => .ok (expand_set hs ++ ts)
    | .Wildcard =>
      match simplify_pass rest with
      | .error e => .error e
      | .ok ts => .ok (expand_set (List.range 127) ++ ts)
    | .Character c => (simplify_pass rest).map (Token.Character c :: ·)
    | .MinMax min max => (simplify_pass rest).map (Token.MinMax min max :: ·)
    | .Times n => (simplify_pass rest).map (Token.Times n :: ·)
    | .Alternation => (simplify_pass rest).map (Token.Alternation :: ·)
    | .KleenClosure => (simplify_pass rest).map (Token.KleenClosure :: ·)
    | .Question => (simplify_pass rest).map (Token.Question :: ·)
    | .Plus => (simplify_pass rest).map (Token.Plus :: ·)
    | .LParen => (simplify_pass rest).map (Token.LParen :: ·)
    | .RParen => (simplify_pass rest).map (Token.RParen :: ·)

/-- `first_is_normal` from `simplify.rs`: a `Concat` is inserted exactly
when the right token is `Character` or `LParen`. -/
def first_is_normal (second : Token) : Bool :=
  match second with
  | .Character _ => true
  | .LParen => true
  | _ => false

/-- Left-token guard of the concatenation pass (the seven arms of the
`match first` in `simpilfy`). -/
def left_is_atomlike (first : Token) : Bool :=
  match first with
  | .Character _ => true
  | .MinMax _ _ => true
  | .Times _ => true
  | .KleenClosure => true
  | .Question => true
  | .Plus => true
  | .RParen => true
  | _ => false

/-- Pass B of `simpilfy` (the `index` walk with in-place insertion).  After
the source inserts a `Concat` at `index + 1` it advances `index` onto the
inserted `Concat`, whose `match` arm is the no-op default, and then onto
the former right token — which is exactly what recursing on
`second :: rest` does here. -/
def concat_pass : List Token → List Token
  | [] => []
  | [t] => [t]
  | t1 :: t2 :: rest =>
    if left_is_atomlike t1 ∧ first_is_normal t2 then
      t1 :: Token.Concat :: concat_pass (t2 :: rest)
    else t1 :: concat_pass (t2 :: rest)

/-- `simpilfy` (sic) from `simplify.rs`: pass A then pass B. -/
def simpilfy (regex : List FirstRegexToken) : Except String (List Token) :=
  (simplify_pass regex).map concat_pass

/-! ### Parser (`parse.rs`)

The source parser is four mutually recursive functions over a token
stack.  Termination is by the stack shrinking; here the nesting through
`parse_group → parse_regex` is broken with an explicit `rec` parameter
(the continuation for a parenthesised sub-regex) and the `binary'`
self-recursion with a fuel argument.  Each successful `parse_unary`
consumes at least one token and each `binary'` step consumes an operator
token besides, so the fuels supplied in `parse` (`length + 1` at each
level) always suffice; the fuel-exhaustion branches are unreachable. -/

/-- `parse_unary_prime`: consume one postfix operator token if the next
token is one, otherwise push it back. -/
def parse_unary_prime (regex : List Token) : Option UnaryOperation × List Token :=
  match regex with
  | [] => (none, [])
  | t :: rest =>
    match t with
    | .KleenClosure => (some .KleenClosure, rest)
    | .Question => (some .Question, rest)
    | .Plus => (some .Plus, rest)
    | .Times min => (some (.Times min), rest)
    | .MinMax min max => (some (.MinMax min max), rest)
    | _ => (none, t :: rest)

/-- `parse_group`: a `Character` is an atom; `LParen` opens a nested regex
(parsed by `rec`) that must be closed by `RParen`. -/
def parse_group (rec : List Token → Except String (RAST × List Token))
    (regex : List Token) : Except String (RAST × List Token) :=
  match regex with
  | [] => .error "Reached end of regex while parsing"
  | t :: rest =>
    match t with
    | .Character c => .ok (.Atomic c, rest)
    | .LParen =>
      match rec rest with
      | .error e => .error e
      | .ok (group, r1) =>
        match r1 with
        | [] => .error "Reached end of regex while parsing"
        | u :: r2 =>
          match u with
          | .RParen => .ok (group, r2)
          | _ => .error "Unexpected token, expected \x27)\x27"
    | _ => .error "Unexpected token, expected char or \x27(\x27"

/-- `parse_unary`: a group followed by at most one postfix operator. -/
def parse_unary (rec : List Token → Except String (RAST × List Token))
    (regex : List Token) : Except String (RAST × List Token) :=
  match parse_group rec regex with
  | .error e => .error e
  | .ok (group, r1) =>
    match parse_unary_prime r1 with
    | (some op, r2) => .ok (.Unary group op, r2)
    | (none, r2) => .ok (group, r2)

/-- `parse_binary_prime` (`binary'`): if the next token is `Concat` or
`Alternation`, consume it, parse a `unary`, recurse, and fold the result
to the right. -/
def parse_binary_prime (rec : List Token → Except String (RAST × List Token)) :
    Nat → List Token → Except String (Option (RAST × BinaryOperation) × List Token)
  | 0, _ => .error "Ran out of fuel"
  | fuel + 1, regex =>
    match regex with
    | [] => .ok (none, [])
    | t :: rest =>
      match (match t with
             | Token.Concat => some BinaryOperation.Concat
             | Token.Alternation => some BinaryOperation.Alternation
             | _ => none) with
      | none => .ok (none, t :: rest)
      | some token =>
        match parse_unary rec rest with
        | .error e => .error e
        | .ok (unary, r1) =>
          match parse_binary_prime rec fuel r1 with
          | .error e => .error e
          | .ok (some (prime, op2), r2) =>
            .ok (some (.Binary unary prime op2, token), r2)
          | .ok (none, r2) => .ok (some (unary, token), r2)

/-- `parse_binary`: a `unary` optionally combined with a `binary'` tail. -/
def parse_binary (rec : List Token → Except String (RAST × List Token))
    (fuel : Nat) (regex : List Token) : Except String (RAST × List Token) :=
  match parse_unary rec regex with
  | .error e => .error e
  | .ok (unary, r1) =>
    match parse_binary_prime rec fuel r1 with
    | .error e => .error e
    | .ok (some (prime, op), r2) => .ok (.Binary unary prime op, r2)
    | .ok (none, r2) => .ok (unary, r2)

/-- `parse_regex` (= `parse_binary`), fuelled on parenthesis depth. -/
def parse_regex : Nat → List Token → Except String (RAST × List Token)
  | 0, _ => .error "Ran out of fuel"
  | fuel + 1, regex =>
    parse_binary (fun r => parse_regex fuel r) (regex.length + 1) regex

/-- `parse` from `parse.rs`: parse a full regex and reject leftover
tokens. -/
def parse (regex : List Token) : Except String RAST :=
  match parse_regex (regex.length + 1) regex with
  | .error e => .error e
  | .ok (rast, rest) =>
    if rest.isEmpty then .ok rast
    else .error "Regex stoped parsing before the end"

/-- The front half of the pipeline, as the claims compose it:
scan, then `simpilfy`, then parse. -/
def pipelineRast (pattern : List Nat) : Except String RAST := do
  let ts ← scan pattern
  let ts2 ← simpilfy ts
  parse ts2

-- sanity checks against the crate's own unit tests
example : scan [97, 123, 51, 125] = .ok [.Character 97, .Times 3] := by decide
example : scan [97, 123, 51, 44, 53, 125] = .ok [.Character 97, .MinMax 3 5] := by decide
example : scan [91, 97, 45, 99, 93] = .ok [.Set [97, 98, 99]] := by decide
example : simpilfy [.Character 97, .Character 97] =
    .ok [.Character 97, .Concat, .Character 97] := by decide
example : pipelineRast [97, 97] =
    .ok (.Binary (.Atomic 97) (.Atomic 97) .Concat) := by decide
example : pipelineRast [97, 97, 124, 97, 98] =
    .ok (.Binary (.Atomic 97)
          (.Binary (.Atomic 97)
            (.Binary (.Atomic 97) (.Atomic 98) .Concat) .Alternation) .Concat) := by
  decide
example : pipelineRast [40, 97, 98, 41, 43] =
    .ok (.Unary (.Binary (.Atomic 97) (.Atomic 98) .Concat) .Plus) := by decide

/-! ### Thompson construction (`nfa.rs`)

The construction is panic-instrumented: `Transition::add_epsilon` panics
on a `Character` node, and `nfa[i]` panics out of bounds; both are
modelled by `Option`, `none` meaning the Rust code would panic. -/

/-- `Transition::add_epsilon` from `nfa.rs`: push a target onto an
`Epsilon` node; the `Character` arm is the source's
`panic!("Programmer Error: Should never add epsilon transitions to
non-epsilon")`. -/
def Transition.add_epsilon (t : Transition) (to_ : Nat) : Option Transition :=
  match t with
  | .Epsilon transitions => some (.Epsilon (transitions ++ [to_]))
  | .Character _ _ => none

/-- The statement `nfa[from].add_epsilon(to)` as used throughout
`nfa.rs`: index, mutate, write back.  `none` covers both panics (index
out of bounds, node not an `Epsilon`). -/
def addEps (nfa : NFA) (i : Nat) (to_ : Nat) : Option NFA :=
  match nfa[i]? with
  | some (.Epsilon ts) => some (nfa.set i (.Epsilon (ts ++ [to_])))
  | _ => none

/-- `new_epsilon` from `nfa.rs`: append a fresh `Epsilon` node and return
the new vector and the node's index. -/
def new_epsilon (nfa : NFA) (transitions : List Nat) : NFA × Nat :=
  (nfa ++ [.Epsilon transitions], nfa.length)

/-- Relocation of one transition by the current length (the loop at the
top of `add_nfa`). -/
def shiftT (k : Nat) : Transition → Transition
  | .Epsilon to_ => .Epsilon (to_.map (· + k))
  | .Character c to_ => .Character c (to_ + k)

/-- `add_nfa` from `nfa.rs`: relocate `to_insert` by `nfa.len()`, append
it, and return the `(start, end)` range of the appended block.  (The
Rust `nfa.len() - 1` is `usize` arithmetic; both inputs are non-empty at
every call site, so the truncating `Nat` subtraction agrees with it.) -/
def add_nfa (nfa : NFA) (to_insert : NFA) : NFA × Range :=
  let shifted := to_insert.map (shiftT nfa.length)
  (nfa ++ shifted, ⟨nfa.length, nfa.length + to_insert.length - 1⟩)

/-- The chaining loop shared by `Times` (`for _ in 1..times`) and the
`for _ in 0..min` loop of `MinMax`: splice one more copy of `middle` and
add an epsilon edge from the end of the previous copy to its start. -/
def timesLoop (middle : NFA) : Nat → NFA × Range → Option (NFA × Range)
  | 0, st => some st
  | k + 1, (nfa, at_) =>
    let p := add_nfa nfa middle
    match addEps p.1 at_.stop p.2.start with
    | some nfa2 => timesLoop middle k (nfa2, p.2)
    | none => none

/-- The `for _ in min..max` loop of `MinMax`: like `timesLoop`, but each
iteration first records the previous range in `hook_to_end`. -/
def maxLoop (middle : NFA) :
    Nat → NFA × Range × List Range → Option (NFA × Range × List Range)
  | 0, st => some st
  | k + 1, (nfa, at_, hooks) =>
    let p := add_nfa nfa middle
    match addEps p.1 at_.stop p.2.start with
    | some nfa2 => maxLoop middle k (nfa2, p.2, hooks ++ [at_])
    | none => none

/-- The final loop of `MinMax`
(`for range in hook_to_end { nfa[range.end].add_epsilon(end) }`). -/
def hookLoop (stop : Nat) : List Range → NFA → Option NFA
  | [], nfa => some nfa
  | r :: rs, nfa =>
    match addEps nfa r.stop stop with
    | some nfa2 => hookLoop stop rs nfa2
    | none => none

/-- Body of `construct_binary_op` given the already-lowered operand NFAs
(the source computes them by the recursive calls `rast_to_nfa(left)` /
`rast_to_nfa(right)` at the two `add_nfa` call sites; they are hoisted
here so that `rast_to_nfa` below is plain structural recursion). -/
def constructBinaryFrom (ln rn : NFA) (op : BinaryOperation) : Option NFA :=
  match op with
  | .Concat =>
    let p1 := add_nfa [] ln
    let p2 := add_nfa p1.1 rn
    addEps p2.1 p1.2.stop p2.2.start
  | .Alternation =>
    let q := new_epsilon [] []
    let p1 := add_nfa q.1 ln
    let p2 := add_nfa p1.1 rn
    let e := new_epsilon p2.1 []
    match addEps e.1 q.2 p1.2.start with
    | none => none
    | some n1 =>
      match addEps n1 q.2 p2.2.start with
      | none => none
      | some n2 =>
        match addEps n2 p1.2.stop e.2 with
        | none => none
        | some n3 => addEps n3 p2.2.stop e.2

/-- Body of `construct_unary_op` given the already-lowered operand NFA
(`let middle = rast_to_nfa(rast)` in the source). -/
def constructUnaryFrom (middle : NFA) (op : UnaryOperation) : Option NFA :=
  match op with
  | .KleenClosure =>
    let s := new_epsilon [] []
    let m := add_nfa s.1 middle
    let e := new_epsilon m.1 [s.2]
    match addEps e.1 s.2 m.2.start with
    | none => none
    | some n1 =>
      match addEps n1 s.2 e.2 with
      | none => none
      | some n2 => addEps n2 m.2.stop e.2
  | .Question =>
    let s := new_epsilon [] []
    let m := add_nfa s.1 middle
    let e := new_epsilon m.1 []
    match addEps e.1 s.2 m.2.start with
    | none => none
    | some n1 =>
      match addEps n1 s.2 e.2 with
      | none => none
      | some n2 => addEps n2 m.2.stop e.2
  | .Plus =>
    let f := add_nfa [] middle
    let s := new_epsilon f.1 []
    match addEps s.1 f.2.stop s.2 with
    | none => none
    | some n1 =>
      let m := add_nfa n1 middle
      let e := new_epsilon m.1 [s.2]
      match addEps e.1 s.2 m.2.start with
      | none => none
      | some n2 =>
        match addEps n2 s.2 e.2 with
        | none => none
        | some n3 => addEps n3 m.2.stop e.2
  | .Times times =>
    -- `let mut at = add_nfa(&mut nfa, middle.clone())`, then
    -- `for _ in 1..times` (i.e. `times - 1` iterations; none for times = 0).
    let p := add_nfa [] middle
    match timesLoop middle (times - 1) (p.1, p.2) with
    | some (nfa, _) => some nfa
    | none => none
  | .MinMax min max =>
    -- `let mut at = Range { start: 0, end: 0 }; new_epsilon(&mut nfa, vec![])`
    let q := new_epsilon [] []
    match timesLoop middle min (q.1, ⟨0, 0⟩) with
    | none => none
    | some (n1, at1) =>
      match maxLoop middle (max - min) (n1, at1, []) with
      | none => none
      | some (n2, at2, hooks) => hookLoop at2.stop hooks n2

/-- `rast_to_nfa` from `nfa.rs`, with the recursive lowering of the
operands hoisted out of `construct_binary_op` / `construct_unary_op`
(see `constructBinaryFrom` / `constructUnaryFrom`). -/
def rast_to_nfa : RAST → Option NFA
  | .Atomic atomic => some [.Character atomic 1, .Epsilon []]
  | .Binary left right op =>
    match rast_to_nfa left, rast_to_nfa right with
    | some ln, some rn => constructBinaryFrom ln rn op
    | _, _ => none
  | .Unary rast op =>
    match rast_to_nfa rast with
    | some middle => constructUnaryFrom middle op
    | none => none

/-- `construct_binary_op` from `nfa.rs` (signature as in the source). -/
def construct_binary_op (left right : RAST) (op : BinaryOperation) : Option NFA :=
  match rast_to_nfa left, rast_to_nfa right with
  | some ln, some rn => constructBinaryFrom ln rn op
  | _, _ => none

/-- `construct_unary_op` from `nfa.rs` (signature as in the source). -/
def construct_unary_op (rast : RAST) (op : UnaryOperation) : Option NFA :=
  match rast_to_nfa rast with
  | some middle => constructUnaryFrom middle op
  | none => none

theorem rast_to_nfa_binary (l r : RAST) (op : BinaryOperation) :
    rast_to_nfa (.Binary l r op) = construct_binary_op l r op := rfl

theorem rast_to_nfa_unary (x : RAST) (op : UnaryOperation) :
    rast_to_nfa (.Unary x op) = construct_unary_op x op := rfl

-- sanity checks against the unit tests of `nfa.rs`
example : rast_to_nfa (.Atomic 97) = some [.Character 97 1, .Epsilon []] := by decide
example : rast_to_nfa (.Binary (.Atomic 97) (.Atomic 98) .Concat) =
    some [.Character 97 1, .Epsilon [2], .Character 98 3, .Epsilon []] := by decide
example : rast_to_nfa (.Binary (.Atomic 97) (.Atomic 98) .Alternation) =
    some [.Epsilon [1, 3], .Character 97 2, .Epsilon [5], .Character 98 4,
          .Epsilon [5], .Epsilon []] := by decide
example : rast_to_nfa (.Unary (.Atomic 97) .KleenClosure) =
    some [.Epsilon [1, 3], .Character 97 2, .Epsilon [3], .Epsilon [0]] := by decide
example : rast_to_nfa (.Unary (.Atomic 97) .Plus) =
    some [.Character 97 1, .Epsilon [2], .Epsilon [3, 5], .Character 97 4,
          .Epsilon [5], .Epsilon [2]] := by decide
example : rast_to_nfa (.Unary (.Atomic 97) .Question) =
    some [.Epsilon [1, 3], .Character 97 2, .Epsilon [3], .Epsilon []] := by decide
example : rast_to_nfa (.Unary (.Atomic 97) (.Times 3)) =
    some [.Character 97 1, .Epsilon [2], .Character 97 3, .Epsilon [4],
          .Character 97 5, .Epsilon []] := by decide
example : rast_to_nfa (.Unary (.Atomic 97) (.MinMax 2 4)) =
    some [.Epsilon [1], .Character 97 2, .Epsilon [3], .Character 97 4,
          .Epsilon [5, 8], .Character 97 6, .Epsilon [7, 8], .Character 97 8,
          .Epsilon []] := by decide
example : rast_to_nfa (.Unary (.Atomic 97) (.MinMax 0 3)) =
    some [.Epsilon [1, 6], .Character 97 2, .Epsilon [3, 6], .Character 97 4,
          .Epsilon [5, 6], .Character 97 6, .Epsilon []] := by decide
example :
    rast_to_nfa (.Binary (.Atomic 97)
      (.Unary (.Binary (.Atomic 98) (.Atomic 99) .Alternation) .KleenClosure) .Concat) =
    some [.Character 97 1, .Epsilon [2], .Epsilon [3, 9], .Epsilon [4, 6],
          .Character 98 5, .Epsilon [8], .Character 99 7, .Epsilon [8],
          .Epsilon [9], .Epsilon [2]] := by decide

/-! ### Structural invariants of the constructed NFAs -/

/-- All node indices stored in a transition are below `n`. -/
def trClosed (n : Nat) : Transition → Prop
  | .Epsilon ts => ∀ x ∈ ts, x < n
  | .Character _ t => t < n

/-- Every transition of the NFA references only valid positions. -/
def closedNfa (nfa : NFA) : Prop := ∀ tr ∈ nfa, trClosed nfa.length tr

/-- Position `i` of the NFA exists and holds an `Epsilon` node. -/
def epsAt (nfa : NFA) (i : Nat) : Prop := ∃ ts, nfa[i]? = some (.Epsilon ts)

/-- The invariant every sub-NFA of the construction satisfies: non-empty,
last node is an `Epsilon`, and all stored indices are in range. -/
def goodNfa (nfa : NFA) : Prop :=
  0 < nfa.length ∧ epsAt nfa (nfa.length - 1) ∧ closedNfa nfa

theorem trClosed_mono {m n : Nat} (h : m ≤ n) {tr : Transition}
    (hc : trClosed m tr) : trClosed n tr := by
  cases tr with
  | Epsilon ts => intro x hx; exact lt_of_lt_of_le (hc x hx) h
  | Character c t => exact lt_of_lt_of_le hc h

theorem epsAt_lt {nfa : NFA} {i : Nat} (h : epsAt nfa i) : i < nfa.length := by
  obtain ⟨ts, hts⟩ := h
  by_contra hge
  rw [List.getElem?_eq_none (by omega)] at hts
  exact Option.noConfusion hts

theorem epsAt_append_left {nfa : NFA} {i : Nat} (h : epsAt nfa i) (l : NFA) :
    epsAt (nfa ++ l) i := by
  obtain ⟨ts, hts⟩ := h
  exact ⟨ts, by rw [List.getElem?_append_left (epsAt_lt ⟨ts, hts⟩)]; exact hts⟩

theorem epsAt_append_self (nfa : NFA) (ts : List Nat) :
    epsAt (nfa ++ [.Epsilon ts]) nfa.length :=
  ⟨ts, by rw [List.getElem?_append_right (Nat.le_refl _)]; simp⟩

theorem closed_append_single {nfa : NFA} {ts : List Nat} (h : closedNfa nfa)
    (hts : ∀ x ∈ ts, x < nfa.length + 1) :
    closedNfa (nfa ++ [.Epsilon ts]) := by
  intro tr htr
  rcases List.mem_append.mp htr with hl | hr
  · exact trClosed_mono (by simp) (h tr hl)
  · simp only [List.mem_singleton] at hr
    subst hr
    simpa [trClosed] using hts

/-- Specification of `addEps` on an `Epsilon` position: it succeeds,
keeps the length, keeps every `Epsilon` position an `Epsilon`, and keeps
the NFA closed provided the new target is in range. -/
theorem addEps_spec {nfa : NFA} {i : Nat} (h : epsAt nfa i) (t : Nat) :
    ∃ nfa2, addEps nfa i t = some nfa2 ∧ nfa2.length = nfa.length ∧
      (∀ j, epsAt nfa j → epsAt nfa2 j) ∧
      (closedNfa nfa → t < nfa.length → closedNfa nfa2) := by
  obtain ⟨ts, hts⟩ := h
  refine ⟨nfa.set i (.Epsilon (ts ++ [t])), by simp [addEps, hts], by simp, ?_, ?_⟩
  · intro j hj
    by_cases hij : i = j
    · subst hij
      exact ⟨ts ++ [t], by rw [List.getElem?_set_self (epsAt_lt ⟨ts, hts⟩)]⟩
    · obtain ⟨ts', hts'⟩ := hj
      exact ⟨ts', by rw [List.getElem?_set_ne hij]; exact hts'⟩
  · intro hc hlt tr htr
    rw [List.length_set]
    rcases List.mem_or_eq_of_mem_set htr with hmem | heq
    · exact hc tr hmem
    · subst heq
      intro x hx
      rcases List.mem_append.mp hx with h1 | h2
      · exact hc _ (List.getElem?_mem hts) x h1
      · simp only [List.mem_singleton] at h2
        omega

theorem epsAt_map_shift {sub : NFA} {i : Nat} (h : epsAt sub i) (k : Nat) :
    epsAt (sub.map (shiftT k)) i := by
  obtain ⟨ts, hts⟩ := h
  exact ⟨ts.map (· + k), by simp [List.getElem?_map, hts, shiftT]⟩

theorem closed_map_shift {sub : NFA} (h : closedNfa sub) (k : Nat) :
    ∀ tr ∈ sub.map (shiftT k), trClosed (k + sub.length) tr := by
  intro tr htr
  obtain ⟨tr0, htr0, rfl⟩ := List.mem_map.mp htr
  cases tr0 with
  | Epsilon ts =>
    intro x hx
    obtain ⟨x0, hx0, rfl⟩ := List.mem_map.mp hx
    have := h _ htr0 x0 hx0
    omega
  | Character c t =>
    have := h _ htr0
    simp only [trClosed, shiftT] at this ⊢
    omega

theorem closed_append {a b : NFA}
    (ha : ∀ tr ∈ a, trClosed (a.length + b.length) tr)
    (hb : ∀ tr ∈ b, trClosed (a.length + b.length) tr) :
    closedNfa (a ++ b) := by
  intro tr htr
  rw [List.length_append]
  rcases List.mem_append.mp htr with h | h
  · exact ha tr h
  · exact hb tr h

theorem epsAt_append_right_at {a b : NFA} {i j : Nat} (h : epsAt b i)
    (hj : j = a.length + i) : epsAt (a ++ b) j := by
  obtain ⟨ts, hts⟩ := h
  refine ⟨ts, ?_⟩
  subst hj
  rw [List.getElem?_append_right (by omega)]
  simpa [Nat.add_sub_cancel_left] using hts

theorem epsAt_append_self_at {j : Nat} (nfa : NFA) (ts : List Nat)
    (hj : j = nfa.length) : epsAt (nfa ++ [.Epsilon ts]) j :=
  ⟨ts, by subst hj; rw [List.getElem?_append_right (Nat.le_refl _)]; simp⟩

theorem closedNfa_append_shift {nfa sub : NFA} {k : Nat} (hn : closedNfa nfa)
    (hs : closedNfa sub) (hk : nfa.length = k) :
    closedNfa (nfa ++ sub.map (shiftT k)) := by
  subst hk
  refine closed_append ?_ ?_
  · intro tr htr
    exact trClosed_mono (by omega) (hn tr htr)
  · intro tr htr
    have := closed_map_shift hs nfa.length tr htr
    exact trClosed_mono (by simp only [List.length_map]; omega) this

theorem closedNfa_single_eps : closedNfa [Transition.Epsilon []] := by
  intro tr htr
  simp only [List.mem_singleton] at htr
  subst htr
  intro x hx
  exact absurd hx (List.not_mem_nil x)

theorem good_concat {ln rn : NFA} (hl : goodNfa ln) (hr : goodNfa rn) :
    ∃ nfa, constructBinaryFrom ln rn BinaryOperation.Concat = some nfa ∧
      goodNfa nfa := by
  obtain ⟨hl1, hlE, hlC⟩ := hl
  obtain ⟨hr1, hrE, hrC⟩ := hr
  simp only [constructBinaryFrom, add_nfa, new_epsilon, List.nil_append,
    List.length_nil, List.length_map, List.length_append, Nat.zero_add]
  have hX : closedNfa (ln.map (shiftT 0) ++ rn.map (shiftT ln.length)) := by
    refine closed_append ?_ ?_ <;> simp only [List.length_map]
    · intro tr htr
      exact trClosed_mono (by omega) (closed_map_shift hlC 0 tr htr)
    · intro tr htr
      exact closed_map_shift hrC ln.length tr htr
  have hE : epsAt (ln.map (shiftT 0) ++ rn.map (shiftT ln.length)) (ln.length - 1) := by
    have h1 := epsAt_map_shift hlE 0
    have h2 := epsAt_append_left h1 (rn.map (shiftT ln.length))
    exact h2
  obtain ⟨nfa2, heq, hlen2, hpr2, hcl2⟩ := addEps_spec hE ln.length
  rw [heq]
  refine ⟨nfa2, rfl, ?_, ?_, ?_⟩
  · simp only [hlen2, List.length_append, List.length_map]
    omega
  · have := hpr2 _ (by
      have h2 := epsAt_map_shift hrE ln.length
      have h3 : epsAt (ln.map (shiftT 0) ++ rn.map (shiftT ln.length))
          (ln.length + (rn.length - 1)) := by
        obtain ⟨ts, hts⟩ := h2
        exact ⟨ts, by
          rw [List.getElem?_append_right (by simp only [List.length_map]; omega)]
          simpa only [List.length_map, Nat.add_sub_cancel_left] using hts⟩
      exact h3)
    have hlen : nfa2.length = ln.length + rn.length := by
      simpa only [List.length_append, List.length_map] using hlen2
    rw [hlen]
    have : ln.length + rn.length - 1 = ln.length + (rn.length - 1) := by omega
    rw [this]
    exact this ▸ ‹epsAt nfa2 (ln.length + (rn.length - 1))›
  · have := hcl2 hX (by simp only [List.length_append, List.length_map]; omega)
    exact this

theorem good_alternation {ln rn : NFA} (hl : goodNfa ln) (hr : goodNfa rn) :
    ∃ nfa, constructBinaryFrom ln rn BinaryOperation.Alternation = some nfa ∧
      goodNfa nfa := by
  obtain ⟨hl1, hlE, hlC⟩ := hl
  obtain ⟨hr1, hrE, hrC⟩ := hr
  simp only [constructBinaryFrom, add_nfa, new_epsilon, List.nil_append,
    List.length_nil, List.length_map, List.length_append, List.length_cons,
    Nat.zero_add]
  -- the spliced vector before the four epsilon edges are added
  have hXc : closedNfa (([Transition.Epsilon []] ++ ln.map (shiftT 1) ++
      rn.map (shiftT (1 + ln.length))) ++ [Transition.Epsilon []]) := by
    refine closed_append_single ?_ (by intro x hx; exact absurd hx (List.not_mem_nil x))
    refine closedNfa_append_shift ?_ hrC (by simp <;> omega)
    exact closedNfa_append_shift closedNfa_single_eps hlC (by simp <;> omega)
  have hX0 : epsAt (([Transition.Epsilon []] ++ ln.map (shiftT 1) ++
      rn.map (shiftT (1 + ln.length))) ++ [Transition.Epsilon []]) 0 :=
    epsAt_append_left (epsAt_append_left (epsAt_append_left ⟨[], rfl⟩ _) _) _
  have hXl : epsAt (([Transition.Epsilon []] ++ ln.map (shiftT 1) ++
      rn.map (shiftT (1 + ln.length))) ++ [Transition.Epsilon []])
      (1 + ln.length - 1) := by
    refine epsAt_append_left (epsAt_append_left ?_ _) _
    exact epsAt_append_right_at (epsAt_map_shift hlE 1) (by simp <;> omega)
  have hXr : epsAt (([Transition.Epsilon []] ++ ln.map (shiftT 1) ++
      rn.map (shiftT (1 + ln.length))) ++ [Transition.Epsilon []])
      (1 + ln.length + rn.length - 1) := by
    refine epsAt_append_left ?_ _
    exact epsAt_append_right_at (epsAt_map_shift hrE (1 + ln.length))
      (by simp <;> omega)
  have hXe : epsAt (([Transition.Epsilon []] ++ ln.map (shiftT 1) ++
      rn.map (shiftT (1 + ln.length))) ++ [Transition.Epsilon []])
      (1 + ln.length + rn.length) :=
    epsAt_append_self_at _ _ (by simp <;> omega)
  have hXlen : (([Transition.Epsilon []] ++ ln.map (shiftT 1) ++
      rn.map (shiftT (1 + ln.length))) ++ [Transition.Epsilon []]).length =
      1 + ln.length + rn.length + 1 := by simp <;> omega
  obtain ⟨n1, he1, hlen1, hpr1, hcl1⟩ := addEps_spec hX0 1
  simp only [he1]
  obtain ⟨n2, he2, hlen2, hpr2, hcl2⟩ := addEps_spec (hpr1 _ hX0) (1 + ln.length)
  simp only [he2]
  obtain ⟨n3, he3, hlen3, hpr3, hcl3⟩ :=
    addEps_spec (hpr2 _ (hpr1 _ hXl)) (1 + ln.length + rn.length)
  simp only [he3]
  obtain ⟨n4, he4, hlen4, hpr4, hcl4⟩ :=
    addEps_spec (hpr3 _ (hpr2 _ (hpr1 _ hXr))) (1 + ln.length + rn.length)
  simp only [he4]
  have hL : n4.length = 1 + ln.length + rn.length + 1 := by
    rw [hlen4, hlen3, hlen2, hlen1, hXlen]
  refine ⟨n4, rfl, by omega, ?_, ?_⟩
  · have : n4.length - 1 = 1 + ln.length + rn.length := by omega
    rw [this]
    exact hpr4 _ (hpr3 _ (hpr2 _ (hpr1 _ hXe)))
  · have hc1 := hcl1 hXc (by omega)
    have hc2 := hcl2 hc1 (by omega)
    have hc3 := hcl3 hc2 (by omega)
    exact hcl4 hc3 (by omega)

theorem closedNfa_map_shift0 {sub : NFA} (h : closedNfa sub) :
    closedNfa (sub.map (shiftT 0)) := by
  intro tr htr
  have := closed_map_shift h 0 tr htr
  rw [List.length_map]
  exact trClosed_mono (by omega) this

/-- Shared shape of the `KleenClosure` and `Question` cases: the spliced
vector is `[ε] ++ shift 1 middle ++ [ε ts]` and the three epsilon edges
`start → middle.start`, `start → end`, `middle.end → end` are added. -/
theorem good_kleen_like {middle : NFA} (hm : goodNfa middle) (ts : List Nat)
    (hts : ∀ x ∈ ts, x < 1 + middle.length + 1) :
    ∃ nfa,
      (match addEps (([Transition.Epsilon []] ++ middle.map (shiftT 1)) ++
          [Transition.Epsilon ts]) 0 1 with
       | none => none
       | some n1 =>
         match addEps n1 0 (1 + middle.length) with
         | none => none
         | some n2 => addEps n2 (1 + middle.length - 1) (1 + middle.length)) =
        some nfa ∧ goodNfa nfa := by
  obtain ⟨hm1, hmE, hmC⟩ := hm
  have hXc : closedNfa (([Transition.Epsilon []] ++ middle.map (shiftT 1)) ++
      [Transition.Epsilon ts]) := by
    refine closed_append_single ?_ ?_
    · exact closedNfa_append_shift closedNfa_single_eps hmC (by simp)
    · intro x hx
      have := hts x hx
      simp only [List.length_append, List.length_map, List.length_cons,
        List.length_nil]
      omega
  have hX0 : epsAt (([Transition.Epsilon []] ++ middle.map (shiftT 1)) ++
      [Transition.Epsilon ts]) 0 :=
    epsAt_append_left (epsAt_append_left ⟨[], rfl⟩ _) _
  have hXm : epsAt (([Transition.Epsilon []] ++ middle.map (shiftT 1)) ++
      [Transition.Epsilon ts]) (1 + middle.length - 1) := by
    refine epsAt_append_left ?_ _
    exact epsAt_append_right_at (epsAt_map_shift hmE 1) (by simp <;> omega)
  have hXe : epsAt (([Transition.Epsilon []] ++ middle.map (shiftT 1)) ++
      [Transition.Epsilon ts]) (1 + middle.length) :=
    epsAt_append_self_at _ _ (by simp <;> omega)
  have hXlen : (([Transition.Epsilon []] ++ middle.map (shiftT 1)) ++
      [Transition.Epsilon ts]).length = 1 + middle.length + 1 := by simp <;> omega
  obtain ⟨n1, he1, hlen1, hpr1, hcl1⟩ := addEps_spec hX0 1
  simp only [he1]
  obtain ⟨n2, he2, hlen2, hpr2, hcl2⟩ := addEps_spec (hpr1 _ hX0) (1 + middle.length)
  simp only [he2]
  obtain ⟨n3, he3, hlen3, hpr3, hcl3⟩ :=
    addEps_spec (hpr2 _ (hpr1 _ hXm)) (1 + middle.length)
  rw [he3]
  have hL : n3.length = 1 + middle.length + 1 := by
    rw [hlen3, hlen2, hlen1, hXlen]
  refine ⟨n3, rfl, by omega, ?_, ?_⟩
  · have : n3.length - 1 = 1 + middle.length := by omega
    rw [this]
    exact hpr3 _ (hpr2 _ (hpr1 _ hXe))
  · have hc1 := hcl1 hXc (by omega)
    have hc2 := hcl2 hc1 (by omega)
    exact hcl3 hc2 (by omega)

theorem good_kleen {middle : NFA} (hm : goodNfa middle) :
    ∃ nfa, constructUnaryFrom middle UnaryOperation.KleenClosure = some nfa ∧
      goodNfa nfa := by
  have := good_kleen_like hm [0] (by intro x hx; simp only [List.mem_singleton] at hx; omega)
  simpa only [constructUnaryFrom, add_nfa, new_epsilon, List.nil_append,
    List.length_nil, List.length_map, List.length_append, List.length_cons,
    Nat.zero_add] using this

theorem good_question {middle : NFA} (hm : goodNfa middle) :
    ∃ nfa, constructUnaryFrom middle UnaryOperation.Question = some nfa ∧
      goodNfa nfa := by
  have := good_kleen_like hm [] (by intro x hx; exact absurd hx (List.not_mem_nil x))
  simpa only [constructUnaryFrom, add_nfa, new_epsilon, List.nil_append,
    List.length_nil, List.length_map, List.length_append, List.length_cons,
    Nat.zero_add] using this

theorem good_plus {middle : NFA} (hm : goodNfa middle) :
    ∃ nfa, constructUnaryFrom middle UnaryOperation.Plus = some nfa ∧
      goodNfa nfa := by
  obtain ⟨hm1, hmE, hmC⟩ := hm
  simp only [constructUnaryFrom, add_nfa, new_epsilon, List.nil_append,
    List.length_nil, List.length_map, List.length_append, List.length_cons,
    Nat.zero_add]
  -- first splice plus the loop-entry epsilon
  have hX1c : closedNfa (middle.map (shiftT 0) ++ [Transition.Epsilon []]) := by
    refine closed_append_single (closedNfa_map_shift0 hmC) ?_
    intro x hx; exact absurd hx (List.not_mem_nil x)
  have hX1m : epsAt (middle.map (shiftT 0) ++ [Transition.Epsilon []])
      (middle.length - 1) :=
    epsAt_append_left (epsAt_map_shift hmE 0) _
  have hX1s : epsAt (middle.map (shiftT 0) ++ [Transition.Epsilon []])
      middle.length :=
    epsAt_append_self_at _ _ (by simp)
  obtain ⟨n1, he1, hlen1, hpr1, hcl1⟩ := addEps_spec hX1m middle.length
  simp only [he1]
  have hn1len : n1.length = middle.length + 1 := by
    rw [hlen1]; simp
  have hn1c : closedNfa n1 := hcl1 hX1c (by simp <;> omega)
  -- second splice and the accept epsilon
  have hX2c : closedNfa ((n1 ++ middle.map (shiftT n1.length)) ++
      [Transition.Epsilon [middle.length]]) := by
    refine closed_append_single (closedNfa_append_shift hn1c hmC rfl) ?_
    intro x hx
    simp only [List.mem_singleton] at hx
    simp only [List.length_append, List.length_map]
    omega
  have hX2s : epsAt ((n1 ++ middle.map (shiftT n1.length)) ++
      [Transition.Epsilon [middle.length]]) middle.length :=
    epsAt_append_left (epsAt_append_left (hpr1 _ hX1s) _) _
  have hX2m : epsAt ((n1 ++ middle.map (shiftT n1.length)) ++
      [Transition.Epsilon [middle.length]]) (n1.length + middle.length - 1) := by
    refine epsAt_append_left ?_ _
    exact epsAt_append_right_at (epsAt_map_shift hmE n1.length) (by omega)
  have hX2e : epsAt ((n1 ++ middle.map (shiftT n1.length)) ++
      [Transition.Epsilon [middle.length]]) (n1.length + middle.length) :=
    epsAt_append_self_at _ _ (by simp)
  have hX2len : ((n1 ++ middle.map (shiftT n1.length)) ++
      [Transition.Epsilon [middle.length]]).length = n1.length + middle.length + 1 := by
    simp <;> omega
  obtain ⟨n2, he2, hlen2, hpr2, hcl2⟩ := addEps_spec hX2s n1.length
  simp only [he2]
  obtain ⟨n3, he3, hlen3, hpr3, hcl3⟩ :=
    addEps_spec (hpr2 _ hX2s) (n1.length + middle.length)
  simp only [he3]
  obtain ⟨n4, he4, hlen4, hpr4, hcl4⟩ :=
    addEps_spec (hpr3 _ (hpr2 _ hX2m)) (n1.length + middle.length)
  rw [he4]
  have hL : n4.length = n1.length + middle.length + 1 := by
    rw [hlen4, hlen3, hlen2, hX2len]
  refine ⟨n4, rfl, by omega, ?_, ?_⟩
  · have : n4.length - 1 = n1.length + middle.length := by omega
    rw [this]
    exact hpr4 _ (hpr3 _ (hpr2 _ hX2e))
  · have hc2 := hcl2 hX2c (by rw [hX2len]; omega)
    have hc3 := hcl3 hc2 (by rw [hlen2, hX2len]; omega)
    exact hcl4 hc3 (by rw [hlen3, hlen2, hX2len]; omega)

/-- Loop invariant for `timesLoop`: from a closed NFA whose last node is
an `Epsilon` marked by `at_.stop`, every iteration succeeds and
re-establishes the invariant. -/
theorem timesLoop_spec {middle : NFA} (hm : goodNfa middle) :
    ∀ (k : Nat) (nfa : NFA) (at_ : Range), closedNfa nfa → 0 < nfa.length →
      at_.stop = nfa.length - 1 → epsAt nfa at_.stop →
      ∃ nfa2 at2, timesLoop middle k (nfa, at_) = some (nfa2, at2) ∧
        closedNfa nfa2 ∧ 0 < nfa2.length ∧ at2.stop = nfa2.length - 1 ∧
        epsAt nfa2 at2.stop := by
  obtain ⟨hm1, hmE, hmC⟩ := hm
  intro k
  induction k with
  | zero =>
    intro nfa at_ h1 h2 h3 h4
    exact ⟨nfa, at_, rfl, h1, h2, h3, h4⟩
  | succ k ih =>
    intro nfa at_ h1 h2 h3 h4
    simp only [timesLoop, add_nfa]
    have hE : epsAt (nfa ++ middle.map (shiftT nfa.length)) at_.stop :=
      epsAt_append_left h4 _
    obtain ⟨n2, heq, hlen, hpr, hcl⟩ := addEps_spec hE nfa.length
    simp only [heq]
    have hlen2 : n2.length = nfa.length + middle.length := by
      rw [hlen]; simp
    have h1' : closedNfa n2 :=
      hcl (closedNfa_append_shift h1 hmC rfl) (by simp <;> omega)
    have h4' : epsAt n2 (nfa.length + middle.length - 1) := by
      refine hpr _ ?_
      exact epsAt_append_right_at (epsAt_map_shift hmE nfa.length) (by omega)
    exact ih n2 ⟨nfa.length, nfa.length + middle.length - 1⟩ h1' (by omega)
      (by simp only []; omega) h4'

theorem good_times {middle : NFA} (hm : goodNfa middle) (t : Nat) :
    ∃ nfa, constructUnaryFrom middle (UnaryOperation.Times t) = some nfa ∧
      goodNfa nfa := by
  obtain ⟨hm1, hmE, hmC⟩ := hm
  simp only [constructUnaryFrom, add_nfa, new_epsilon, List.nil_append,
    List.length_nil, Nat.zero_add]
  obtain ⟨nfa2, at2, heq, hc2, hp2, hs2, he2⟩ :=
    timesLoop_spec ⟨hm1, hmE, hmC⟩ (t - 1) (middle.map (shiftT 0))
      ⟨0, middle.length - 1⟩ (closedNfa_map_shift0 hmC)
      (by simp <;> omega) (by simp) (by simpa using epsAt_map_shift hmE 0)
  rw [heq]
  exact ⟨nfa2, rfl, hp2, hs2 ▸ he2, hc2⟩

/-- Loop invariant for `maxLoop`: like `timesLoop_spec`, with every
recorded hook pointing at an `Epsilon` node. -/
theorem maxLoop_spec {middle : NFA} (hm : goodNfa middle) :
    ∀ (k : Nat) (nfa : NFA) (at_ : Range) (hooks : List Range),
      closedNfa nfa → 0 < nfa.length →
      at_.stop = nfa.length - 1 → epsAt nfa at_.stop →
      (∀ h ∈ hooks, epsAt nfa h.stop) →
      ∃ nfa2 at2 hooks2, maxLoop middle k (nfa, at_, hooks) = some (nfa2, at2, hooks2) ∧
        closedNfa nfa2 ∧ 0 < nfa2.length ∧ at2.stop = nfa2.length - 1 ∧
        epsAt nfa2 at2.stop ∧ (∀ h ∈ hooks2, epsAt nfa2 h.stop) := by
  obtain ⟨hm1, hmE, hmC⟩ := hm
  intro k
  induction k with
  | zero =>
    intro nfa at_ hooks h1 h2 h3 h4 h5
    exact ⟨nfa, at_, hooks, rfl, h1, h2, h3, h4, h5⟩
  | succ k ih =>
    intro nfa at_ hooks h1 h2 h3 h4 h5
    simp only [maxLoop, add_nfa]
    have hE : epsAt (nfa ++ middle.map (shiftT nfa.length)) at_.stop :=
      epsAt_append_left h4 _
    obtain ⟨n2, heq, hlen, hpr, hcl⟩ := addEps_spec hE nfa.length
    simp only [heq]
    have hlen2 : n2.length = nfa.length + middle.length := by
      rw [hlen]; simp
    have h1' : closedNfa n2 :=
      hcl (closedNfa_append_shift h1 hmC rfl) (by simp <;> omega)
    have h4' : epsAt n2 (nfa.length + middle.length - 1) := by
      refine hpr _ ?_
      exact epsAt_append_right_at (epsAt_map_shift hmE nfa.length) (by omega)
    have h5' : ∀ h ∈ hooks ++ [at_], epsAt n2 h.stop := by
      intro h hh
      rcases List.mem_append.mp hh with hh | hh
      · exact hpr _ (epsAt_append_left (h5 h hh) _)
      · simp only [List.mem_singleton] at hh
        subst hh
        exact hpr _ hE
    exact ih n2 ⟨nfa.length, nfa.length + middle.length - 1⟩ (hooks ++ [at_])
      h1' (by omega) (by simp only []; omega) h4' h5'

/-- Every hook edge of `MinMax` succeeds and preserves the invariants. -/
theorem hookLoop_spec : ∀ (hooks : List Range) (nfa : NFA) (stop : Nat),
    closedNfa nfa → stop < nfa.length → (∀ h ∈ hooks, epsAt nfa h.stop) →
    ∃ nfa2, hookLoop stop hooks nfa = some nfa2 ∧ closedNfa nfa2 ∧
      nfa2.length = nfa.length ∧ (∀ j, epsAt nfa j → epsAt nfa2 j) := by
  intro hooks
  induction hooks with
  | nil =>
    intro nfa stop h1 h2 h3
    exact ⟨nfa, rfl, h1, rfl, fun _ h => h⟩
  | cons r rs ih =>
    intro nfa stop h1 h2 h3
    simp only [hookLoop]
    obtain ⟨n2, heq, hlen, hpr, hcl⟩ :=
      addEps_spec (h3 r (List.mem_cons_self r rs)) stop
    simp only [heq]
    obtain ⟨n3, heq3, hc3, hlen3, hpr3⟩ :=
      ih n2 stop (hcl h1 h2) (by omega)
        (fun h hh => hpr _ (h3 h (List.mem_cons_of_mem r hh)))
    exact ⟨n3, heq3, hc3, by omega, fun j hj => hpr3 j (hpr j hj)⟩

theorem good_minmax {middle : NFA} (hm : goodNfa middle) (min max : Nat) :
    ∃ nfa, constructUnaryFrom middle (UnaryOperation.MinMax min max) = some nfa ∧
      goodNfa nfa := by
  simp only [constructUnaryFrom, new_epsilon, List.nil_append]
  obtain ⟨n1, at1, heq1, hc1, hp1, hs1, he1⟩ :=
    timesLoop_spec hm min [Transition.Epsilon []] ⟨0, 0⟩
      closedNfa_single_eps (by simp) (by simp) ⟨[], rfl⟩
  simp only [heq1]
  obtain ⟨n2, at2, hooks2, heq2, hc2, hp2, hs2, he2, hh2⟩ :=
    maxLoop_spec hm (max - min) n1 at1 [] hc1 hp1 hs1 he1
      (fun h hh => absurd hh (List.not_mem_nil h))
  simp only [heq2]
  obtain ⟨n3, heq3, hc3, hlen3, hpr3⟩ :=
    hookLoop_spec hooks2 n2 at2.stop hc2 (by omega) hh2
  simp only [heq3]
  refine ⟨n3, rfl, by omega, ?_, hc3⟩
  have : n3.length - 1 = at2.stop := by omega
  rw [this]
  exact hpr3 _ he2

/-- Every RAST lowers without panicking, and the resulting NFA is
non-empty, ends in an `Epsilon` node, and references only valid
positions. -/
theorem rtn_good : ∀ r : RAST, ∃ nfa, rast_to_nfa r = some nfa ∧ goodNfa nfa := by
  intro r
  induction r with
  | Atomic c =>
    refine ⟨[.Character c 1, .Epsilon []], rfl, ?_, ⟨[], rfl⟩, ?_⟩
    · simp
    · intro tr htr
      simp only [List.mem_cons, List.mem_singleton, List.not_mem_nil,
        or_false] at htr
      rcases htr with rfl | rfl
      · simp only [trClosed, List.length_cons, List.length_nil]
        omega
      · intro x hx
        exact absurd hx (List.not_mem_nil x)
  | Binary l r op ihl ihr =>
    obtain ⟨ln, hlEq, hlg⟩ := ihl
    obtain ⟨rn, hrEq, hrg⟩ := ihr
    cases op with
    | Concat =>
      obtain ⟨nfa, he, hg⟩ := good_concat hlg hrg
      exact ⟨nfa, by simp only [rast_to_nfa, hlEq, hrEq]; exact he, hg⟩
    | Alternation =>
      obtain ⟨nfa, he, hg⟩ := good_alternation hlg hrg
      exact ⟨nfa, by simp only [rast_to_nfa, hlEq, hrEq]; exact he, hg⟩
  | Unary x op ih =>
    obtain ⟨mn, hmEq, hmg⟩ := ih
    cases op with
    | MinMax mi ma =>
      obtain ⟨nfa, he, hg⟩ := good_minmax hmg mi ma
      exact ⟨nfa, by simp only [rast_to_nfa, hmEq]; exact he, hg⟩
    | Times t =>
      obtain ⟨nfa, he, hg⟩ := good_times hmg t
      exact ⟨nfa, by simp only [rast_to_nfa, hmEq]; exact he, hg⟩
    | KleenClosure =>
      obtain ⟨nfa, he, hg⟩ := good_kleen hmg
      exact ⟨nfa, by simp only [rast_to_nfa, hmEq]; exact he, hg⟩
    | Question =>
      obtain ⟨nfa, he, hg⟩ := good_question hmg
      exact ⟨nfa, by simp only [rast_to_nfa, hmEq]; exact he, hg⟩
    | Plus =>
      obtain ⟨nfa, he, hg⟩ := good_plus hmg
      exact ⟨nfa, by simp only [rast_to_nfa, hmEq]; exact he, hg⟩

/-! ### The `a{n}` chain NFA -/

/-- The sub-NFA of the byte `a` (`rast_to_nfa(Atomic(97))`). -/
def aAtom : NFA := [.Character 97 1, .Epsilon []]

/-- Closed form of the NFA of `Unary(Atomic(97), Times(n))`: `n` copies of
`aAtom` chained by epsilon edges, built exactly the way the `Times` loop
builds it (append one copy, then point the previous copy's final epsilon
at its entry). -/
def aChain : Nat → NFA
  | 0 => []
  | 1 => [.Character 97 1, .Epsilon []]
  | j + 2 =>
    (aChain (j + 1)).set (2 * j + 1) (.Epsilon [2 * j + 2]) ++
      [.Character 97 (2 * j + 3), .Epsilon []]

theorem aChain_length : ∀ n, (aChain n).length = 2 * n
  | 0 => rfl
  | 1 => rfl
  | (j + 2) => by
    simp only [aChain, List.length_append, List.length_set, List.length_cons,
      List.length_nil]
    rw [aChain_length (j + 1)]
    omega

theorem aChain_last : ∀ j, 1 ≤ j → (aChain j)[2 * j - 1]? = some (.Epsilon [])
  | 1, _ => rfl
  | (j + 2), _ => by
    have hl : ((aChain (j + 1)).set (2 * j + 1) (.Epsilon [2 * j + 2])).length =
        2 * (j + 1) := by rw [List.length_set, aChain_length]
    rw [show aChain (j + 2) = (aChain (j + 1)).set (2 * j + 1) (.Epsilon [2 * j + 2]) ++
          [.Character 97 (2 * j + 3), .Epsilon []] from rfl]
    rw [List.getElem?_append_right (by rw [hl]; omega)]
    rw [hl]
    rw [show 2 * (j + 2) - 1 - 2 * (j + 1) = 1 from by omega]
    rfl

theorem aChain_get_even : ∀ n i, i < n →
    (aChain n)[2 * i]? = some (.Character 97 (2 * i + 1))
  | 0, i, h => absurd h (Nat.not_lt_zero i)
  | 1, 0, _ => rfl
  | 1, (i + 1), h => absurd h (by omega)
  | (j + 2), i, h => by
    have hl : ((aChain (j + 1)).set (2 * j + 1) (.Epsilon [2 * j + 2])).length =
        2 * (j + 1) := by rw [List.length_set, aChain_length]
    rw [show aChain (j + 2) = (aChain (j + 1)).set (2 * j + 1) (.Epsilon [2 * j + 2]) ++
          [.Character 97 (2 * j + 3), .Epsilon []] from rfl]
    by_cases hi : i < j + 1
    · rw [List.getElem?_append_left (by rw [hl]; omega)]
      rw [List.getElem?_set_ne (by omega)]
      exact aChain_get_even (j + 1) i hi
    · have hij : i = j + 1 := by omega
      subst hij
      rw [List.getElem?_append_right (by rw [hl])]
      rw [hl]
      rw [show 2 * (j + 1) - 2 * (j + 1) = 0 from by omega]
      rw [show 2 * (j + 1) + 1 = 2 * j + 3 from by omega]
      rfl

theorem aChain_get_odd : ∀ n i, i + 1 < n →
    (aChain n)[2 * i + 1]? = some (.Epsilon [2 * i + 2])
  | 0, i, h => absurd h (by omega)
  | 1, i, h => absurd h (by omega)
  | (j + 2), i, h => by
    have hl : ((aChain (j + 1)).set (2 * j + 1) (.Epsilon [2 * j + 2])).length =
        2 * (j + 1) := by rw [List.length_set, aChain_length]
    rw [show aChain (j + 2) = (aChain (j + 1)).set (2 * j + 1) (.Epsilon [2 * j + 2]) ++
          [.Character 97 (2 * j + 3), .Epsilon []] from rfl]
    rw [List.getElem?_append_left (by rw [hl]; omega)]
    by_cases hi : i = j
    · subst hi
      rw [List.getElem?_set_self (by rw [aChain_length]; omega)]
    · rw [List.getElem?_set_ne (by omega)]
      exact aChain_get_odd (j + 1) i (by omega)

theorem addEps_eq {nfa : NFA} {i : Nat} {ts : List Nat}
    (h : nfa[i]? = some (.Epsilon ts)) (t : Nat) :
    addEps nfa i t = some (nfa.set i (.Epsilon (ts ++ [t]))) := by
  simp [addEps, h]

theorem timesLoop_aChain : ∀ (m j s t : Nat), 1 ≤ j → s = 2 * j - 2 →
    t = 2 * j - 1 →
    timesLoop aAtom m (aChain j, ⟨s, t⟩) =
      some (aChain (j + m), ⟨2 * (j + m) - 2, 2 * (j + m) - 1⟩) := by
  intro m
  induction m with
  | zero =>
    intro j s t hj hs ht
    subst hs; subst ht
    simp [timesLoop]
  | succ m ih =>
    intro j s t hj hs ht
    subst hs; subst ht
    have hl : (aChain j).length = 2 * j := aChain_length j
    simp only [timesLoop, add_nfa, aAtom, List.map_cons, List.map_nil, shiftT,
      List.map_nil, List.length_cons, List.length_nil, hl]
    have hget : (aChain j ++
        [Transition.Character 97 (1 + 2 * j), Transition.Epsilon []])[2 * j - 1]? =
        some (.Epsilon []) := by
      rw [List.getElem?_append_left (by rw [hl]; omega)]
      exact aChain_last j hj
    rw [addEps_eq hget]
    rw [List.set_append_left _ _ (by rw [hl]; omega)]
    have hstep : (aChain j).set (2 * j - 1) (.Epsilon ([] ++ [2 * j])) ++
        [Transition.Character 97 (1 + 2 * j), Transition.Epsilon []] =
        aChain (j + 1) := by
      obtain ⟨i, rfl⟩ : ∃ i, j = i + 1 := ⟨j - 1, by omega⟩
      rw [show aChain (i + 2) = (aChain (i + 1)).set (2 * i + 1)
            (.Epsilon [2 * i + 2]) ++
            [.Character 97 (2 * i + 3), .Epsilon []] from rfl]
      rw [List.nil_append]
      rw [show 2 * (i + 1) - 1 = 2 * i + 1 from by omega]
      rw [show (2 * (i + 1) : Nat) = 2 * i + 2 from by omega]
      rw [show 1 + (2 * i + 2) = 2 * i + 3 from by omega]
    rw [hstep]
    show timesLoop aAtom m (aChain (j + 1), ⟨2 * j, 2 * j + 1⟩) =
      some (aChain (j + (m + 1)),
        ⟨2 * (j + (m + 1)) - 2, 2 * (j + (m + 1)) - 1⟩)
    rw [ih (j + 1) (2 * j) (2 * j + 1) (by omega) (by omega) (by omega)]
    rw [show j + 1 + m = j + (m + 1) from by omega]

/-- `rast_to_nfa` on `a{n}` is exactly the chain of `n` atoms. -/
theorem rtn_times_aChain (n : Nat) (hn : 1 ≤ n) :
    rast_to_nfa (.Unary (.Atomic 97) (.Times n)) = some (aChain n) := by
  have h := timesLoop_aChain (n - 1) 1 0 1 (by omega) (by omega) (by omega)
  rw [show 1 + (n - 1) = n from by omega] at h
  show (match timesLoop aAtom (n - 1) (aChain 1, ⟨0, 1⟩) with
        | some (nfa, _) => some nfa
        | none => none) = some (aChain n)
  rw [h]

/-! ### NFA acceptance -/

/-- Modelled from the spec: the matcher that consumes the NFA is an
external collaborator (no matcher exists in the crate), and §3 of the
spec fixes its semantics — `Epsilon(targets)` are non-consuming moves,
`Character(b, target)` consumes exactly byte `b`, the entry is index `0`,
and reaching the accept node (the last index) with the input exhausted is
the sole acceptance signal.  `Accepts nfa i w` says the suffix `w` can be
consumed from node `i` ending at the accept node. -/
inductive Accepts (nfa : NFA) : Nat → List Nat → Prop where
  | finish : Accepts nfa (nfa.length - 1) []
  | eps {i t w} {ts : List Nat} : nfa[i]? = some (.Epsilon ts) → t ∈ ts →
      Accepts nfa t w → Accepts nfa i w
  | chr {i c t w} : nfa[i]? = some (.Character c t) →
      Accepts nfa t w → Accepts nfa i (c :: w)

/-- The language of an NFA: words consumable from the entry node 0. -/
def nfaAccepts (nfa : NFA) (w : List Nat) : Prop := Accepts nfa 0 w

/-- Inversion along the `a{n}` chain: anything accepted from an even
state `2j` is the remaining `n - j` copies of `a`; from an odd state
`2j + 1`, the remaining `n - 1 - j` copies. -/
theorem aChain_accepts_inv {n : Nat} (hn : 1 ≤ n) :
    ∀ i w, Accepts (aChain n) i w → ∀ j, j < n →
      (i = 2 * j → w = List.replicate (n - j) 97) ∧
      (i = 2 * j + 1 → w = List.replicate (n - 1 - j) 97) := by
  intro i w h
  induction h with
  | finish =>
    intro j hj
    rw [aChain_length] at *
    constructor
    · intro he
      omega
    · intro he
      have : j = n - 1 := by omega
      subst this
      rw [show n - 1 - (n - 1) = 0 from by omega]
      rfl
  | eps hget hmem _ ih =>
    intro j hj
    constructor
    · intro he
      subst he
      rw [aChain_get_even n j hj] at hget
      exact absurd hget (by simp)
    · intro he
      subst he
      by_cases hj1 : j + 1 < n
      · rw [aChain_get_odd n j hj1] at hget
        injection hget with hget
        injection hget with hget
        subst hget
        simp only [List.mem_singleton] at hmem
        subst hmem
        have := (ih (j + 1) hj1).1 (by omega)
        rw [this]
        rw [show n - (j + 1) = n - 1 - j from by omega]
      · have hj1' : j + 1 = n := by omega
        have : (2 : Nat) * j + 1 = 2 * n - 1 := by omega
        rw [this, aChain_last n hn] at hget
        injection hget with hget
        injection hget with hget
        subst hget
        exact absurd hmem (List.not_mem_nil _)
  | chr hget _ ih =>
    intro j hj
    constructor
    · intro he
      subst he
      rw [aChain_get_even n j hj] at hget
      injection hget with hget
      injection hget with h1 h2
      subst h1
      subst h2
      have := (ih j hj).2 rfl
      rw [this]
      rw [show n - j = (n - 1 - j) + 1 from by omega]
      rfl
    · intro he
      subst he
      by_cases hj1 : j + 1 < n
      · rw [aChain_get_odd n j hj1] at hget
        exact absurd hget (by simp)
      · have : (2 : Nat) * j + 1 = 2 * n - 1 := by omega
        rw [this, aChain_last n hn] at hget
        exact absurd hget (by simp)

/-- Construction along the `a{n}` chain: from state `2j` the word of the
remaining `n - j` copies of `a` is accepted. -/
theorem aChain_accepts_build {n : Nat} (hn : 1 ≤ n) :
    ∀ d j, j < n → n - j ≤ d →
      Accepts (aChain n) (2 * j) (List.replicate (n - j) 97) := by
  intro d
  induction d with
  | zero =>
    intro j hj hd
    omega
  | succ d ih =>
    intro j hj hd
    rw [show n - j = (n - j - 1) + 1 from by omega]
    rw [List.replicate_succ]
    refine Accepts.chr (aChain_get_even n j hj) ?_
    by_cases hj1 : j + 1 < n
    · refine Accepts.eps (aChain_get_odd n j hj1) (List.mem_singleton.mpr rfl) ?_
      have := ih (j + 1) hj1 (by omega)
      rw [show n - (j + 1) = n - j - 1 from by omega] at this
      rw [show (2 : Nat) * (j + 1) = 2 * j + 2 from by omega] at this
      exact this
    · have hj1' : j + 1 = n := by omega
      rw [show n - j - 1 = 0 from by omega]
      have : (2 : Nat) * j + 1 = (aChain n).length - 1 := by
        rw [aChain_length]; omega
      rw [this]
      exact Accepts.finish

/-- The `a{n}` chain accepts exactly `aⁿ`. -/
theorem aChain_accepts_iff {n : Nat} (hn : 1 ≤ n) (w : List Nat) :
    nfaAccepts (aChain n) w ↔ w = List.replicate n 97 := by
  constructor
  · intro h
    have := (aChain_accepts_inv hn 0 w h 0 (by omega)).1 rfl
    simpa using this
  · intro h
    subst h
    have := aChain_accepts_build hn n 0 (by omega) (by omega)
    simpa using this

/-! ### The claims -/

/-- ASCII decimal rendering of `n` (no leading zeros), for `n ≤ 999`:
the digits of the pattern `a{n}`. -/
def decimalBytes (n : Nat) : List Nat :=
  if n < 10 then [n + 48]
  else if n < 100 then [n / 10 + 48, n % 10 + 48]
  else [n / 100 + 48, n / 10 % 10 + 48, n % 10 + 48]

/-- The byte string of the pattern `a{n}`. -/
def aPattern (n : Nat) : List Nat := 97 :: 123 :: (decimalBytes n ++ [125])

set_option maxRecDepth 10000 in
/-- Pipeline half of C8, checked for every n in range by evaluation. -/
theorem pipeline_aPattern : ∀ n, n < 256 → 1 ≤ n →
    pipelineRast (aPattern n) = .ok (.Unary (.Atomic 97) (.Times n)) := by
  decide

/-- C1: the claim states that in `X Concat Y Alternation Z` the
concatenation groups on the left under an outermost alternation
(`Binary(Binary(a, b, Concat), c, Alternation)` for `ab|c`).  The parser
actually right-folds all binary operators at one precedence level, so
`ab|c` parses as `Binary(a, Binary(b, c, Alternation), Concat)` — the
claimed tree is not returned. -/
theorem C1_counterexample :
    parse [Token.Character 97, Token.Concat, Token.Character 98,
      Token.Alternation, Token.Character 99] =
      .ok (.Binary (.Atomic 97)
        (.Binary (.Atomic 98) (.Atomic 99) .Alternation) .Concat) ∧
    parse [Token.Character 97, Token.Concat, Token.Character 98,
      Token.Alternation, Token.Character 99] ≠
      .ok (.Binary (.Binary (.Atomic 97) (.Atomic 98) .Concat)
        (.Atomic 99) .Alternation) := by
  decide

/-- C1 (amended): for every token stream `X Concat Y Alternation Z` with
character atoms, `parse` treats both binary operators at a single
precedence level and folds them to the right, returning
`Binary(X, Binary(Y, Z, Alternation), Concat)`: the concatenation is the
outermost operator with the alternation nested on its right. -/
theorem C1_theorem (a b c : Nat) :
    parse [Token.Character a, Token.Concat, Token.Character b,
      Token.Alternation, Token.Character c] =
      .ok (.Binary (.Atomic a)
        (.Binary (.Atomic b) (.Atomic c) .Alternation) .Concat) := rfl

/-- C2: the claim states the accept node of every compiled NFA is an
`Epsilon` with an empty target list.  For the pattern `a*` the pipeline
produces `Unary(Atomic(a), KleenClosure)` whose NFA ends in
`Epsilon([0])` — an epsilon node with a back edge to the loop entry, not
an empty one. -/
theorem C2_counterexample :
    pipelineRast [97, 42] = .ok (.Unary (.Atomic 97) .KleenClosure) ∧
    rast_to_nfa (.Unary (.Atomic 97) .KleenClosure) =
      some [.Epsilon [1, 3], .Character 97 2, .Epsilon [3], .Epsilon [0]] ∧
    ([.Epsilon [1, 3], .Character 97 2, .Epsilon [3],
      .Epsilon [0]] : NFA).getLast? = some (.Epsilon [0]) ∧
    Transition.Epsilon [0] ≠ Transition.Epsilon [] := by
  decide

/-- C2 (amended): for every pattern accepted by the pipeline, the NFA is
non-empty (entry at index 0) and its accept node — the last index — is
always an `Epsilon` transition; its target list, however, may be
non-empty (for an outermost `KleenClosure` or `Plus` it holds the loop
entry). -/
theorem C2_theorem (p : List Nat) (ts : List FirstRegexToken)
    (ts2 : List Token) (r : RAST) (nfa : NFA)
    (hscan : scan p = .ok ts) (hsimp : simpilfy ts = .ok ts2)
    (hparse : parse ts2 = .ok r) (hnfa : rast_to_nfa r = some nfa) :
    0 < nfa.length ∧ ∃ ts', nfa.getLast? = some (.Epsilon ts') := by
  obtain ⟨nfa0, heq, hpos, hlast, _⟩ := rtn_good r
  rw [hnfa] at heq
  injection heq with heq
  subst heq
  obtain ⟨ts', hts'⟩ := hlast
  exact ⟨hpos, ts', by rw [List.getLast?_eq_getElem?]; exact hts'⟩

/-- Witness for C2 at the pattern `"a"`. -/
theorem C2_witness :
    0 < ([Transition.Character 97 1, Transition.Epsilon []] : NFA).length ∧
    ∃ ts', ([Transition.Character 97 1, Transition.Epsilon []] : NFA).getLast? =
      some (.Epsilon ts') :=
  C2_theorem [97] [.Character 97] [.Character 97] (.Atomic 97)
    [.Character 97 1, .Epsilon []] rfl rfl rfl rfl

/-- C3: for every RAST, the lowering succeeds and every node index stored
in any transition of the result — each element of an `Epsilon` target
list and each `Character` target — is strictly below the length of the
produced vector. -/
theorem C3_theorem (r : RAST) :
    ∃ nfa, rast_to_nfa r = some nfa ∧ ∀ tr ∈ nfa, trClosed nfa.length tr := by
  obtain ⟨nfa, heq, _, _, hclosed⟩ := rtn_good r
  exact ⟨nfa, heq, hclosed⟩

/-- C4: the claim states `parse` stacks multiple postfix operators
(`Ok(Unary(Unary(a, *), +))` for the stream `a * +`).  In fact
`parse_unary` consumes at most one postfix operator, so the `Plus` is
left unconsumed and `parse` fails with the trailing-tokens error. -/
theorem C4_counterexample :
    parse [Token.Character 97, Token.KleenClosure, Token.Plus] =
      .error "Regex stoped parsing before the end" ∧
    parse [Token.Character 97, Token.KleenClosure, Token.Plus] ≠
      .ok (.Unary (.Unary (.Atomic 97) .KleenClosure) .Plus) := by
  decide

/-- C4 (amended): `parse_unary` applies at most one postfix operator to a
group, so on `[Character(a), KleenClosure, Plus]` parsing stops after
`Unary(Atomic(a), KleenClosure)` and `parse` returns the trailing-tokens
error; operators stack outermost-last only through explicit grouping, as
in `(a*)+`. -/
theorem C4_theorem (a : Nat) :
    parse [Token.Character a, Token.KleenClosure, Token.Plus] =
      .error "Regex stoped parsing before the end" ∧
    parse [Token.LParen, Token.Character a, Token.KleenClosure,
      Token.RParen, Token.Plus] =
      .ok (.Unary (.Unary (.Atomic a) .KleenClosure) .Plus) :=
  ⟨rfl, rfl⟩

/-- C5: running scan, `simpilfy`, parse on the bare pattern `a*+` fails
in the parser with the trailing-tokens error: parsing stops at
`Unary(Atomic(a), KleenClosure)` with the `Plus` token unconsumed. -/
theorem C5_theorem :
    scan [97, 42, 43] = .ok [.Character 97, .KleenClosure, .Plus] ∧
    simpilfy [.Character 97, .KleenClosure, .Plus] =
      .ok [.Character 97, .KleenClosure, .Plus] ∧
    parse [.Character 97, .KleenClosure, .Plus] =
      .error "Regex stoped parsing before the end" := by
  decide

/-- C6: the claim states an escaped `]` inside a class is a literal
member, so `scan("[\]]")` yields `Set({']'})`.  The code instead pushes
the escape-resolved byte back onto the input, where the `]` arm of the
next loop iteration terminates the class: the set closes empty and the
final `]` becomes a top-level `Character(']')` token. -/
theorem C6_theorem :
    scan [91, 92, 93, 93] = .ok [.Set [], .Character 93] ∧
    (FirstRegexToken.Set [] ≠ FirstRegexToken.Set [93]) := by
  decide

/-- C7: the claim states the one-byte pattern `]` is rejected.  The
scanner's match has no arm for `]`, so it falls through to
`Character(']')` and the pipeline happily returns `Ok(Atomic(']'))`. -/
theorem C7_theorem : pipelineRast [93] = .ok (.Atomic 93) := by
  decide

/-- C8: for every `1 ≤ n ≤ 255`, compiling the pattern `a{n}` (scan,
`simpilfy`, parse give `Unary(Atomic(a), Times(n))`, then `rast_to_nfa`)
produces an NFA with exactly `2n` transitions that accepts exactly the
string of `n` repetitions of the byte `a`. -/
theorem C8_theorem (n : Nat) (h1 : 1 ≤ n) (h2 : n ≤ 255) :
    pipelineRast (aPattern n) = .ok (.Unary (.Atomic 97) (.Times n)) ∧
    ∃ nfa, rast_to_nfa (.Unary (.Atomic 97) (.Times n)) = some nfa ∧
      nfa.length = 2 * n ∧
      ∀ w, nfaAccepts nfa w ↔ w = List.replicate n 97 := by
  refine ⟨pipeline_aPattern n (by omega) h1, aChain n, rtn_times_aChain n h1,
    aChain_length n, fun w => aChain_accepts_iff h1 w⟩

/-- Witness for C8 at `n = 2`. -/
theorem C8_witness :
    pipelineRast (aPattern 2) = .ok (.Unary (.Atomic 97) (.Times 2)) ∧
    ∃ nfa, rast_to_nfa (.Unary (.Atomic 97) (.Times 2)) = some nfa ∧
      nfa.length = 2 * 2 ∧
      ∀ w, nfaAccepts nfa w ↔ w = List.replicate 2 97 :=
  C8_theorem 2 (by decide) (by decide)

/-- C9: for every RAST, the lowering runs to completion without hitting a
panic — `rast_to_nfa` models both panic sites (`Transition::add_epsilon`
on a non-`Epsilon` node, and out-of-bounds indexing) as `none`, and it
always returns `some` — and the last element of the produced vector is an
`Epsilon` transition. -/
theorem C9_theorem (r : RAST) :
    ∃ nfa, rast_to_nfa r = some nfa ∧
      ∃ ts, nfa.getLast? = some (.Epsilon ts) := by
  obtain ⟨nfa, heq, _, hlast, _⟩ := rtn_good r
  obtain ⟨ts, hts⟩ := hlast
  exact ⟨nfa, heq, ts, by rw [List.getLast?_eq_getElem?]; exact hts⟩

/-- C10: when the next byte is not a decimal digit, `get_num` consumes
nothing and returns 0 (erroring only on exhausted input), so
`scan("a{,5}")` yields `[Character(a), MinMax(0, 5)]` and `scan("a{}")`
yields `[Character(a), Times(0)]`. -/
theorem C10_theorem :
    (∀ (c : Nat) (r : List Nat), (c < 48 ∨ 57 < c) →
      get_num (c :: r) = .ok (0, c :: r)) ∧
    get_num [] = .error "Mismatched \x7b" ∧
    scan [97, 123, 44, 53, 125] = .ok [.Character 97, .MinMax 0 5] ∧
    scan [97, 123, 125] = .ok [.Character 97, .Times 0] := by
  refine ⟨?_, by decide, by decide, by decide⟩
  intro c r h
  simp [get_num, get_num_loop, h]

/-- Witness for C10's universal clause at `c = ','`. -/
theorem C10_witness :
    ((44 : Nat) < 48 ∨ 57 < 44) ∧
    get_num [44, 53, 125] = .ok (0, [44, 53, 125]) :=
  ⟨by decide, C10_theorem.1 44 [53, 125] (by decide)⟩

